import Mathlib

/-!
Verification of the bluestack blob storage engine (`FileBlobStore`).

This file gives a shallow embedding of the engine: the in-memory container
index (`containers map[string]bool`) together with the fragment of the
filesystem below the store's base directory, and the seven operations of the
`BlobStore` interface (`CreateContainer`, `DeleteContainer`, `ContainerExists`,
`PutBlob`, `GetBlob`, `DeleteBlob`, `ListBlobs`).

Modelling conventions:
  * A path is the list of its segments, relative to the base directory
    (`baseDir/blob`); the base directory itself is `[]`.
  * Byte contents are lists of naturals.
  * Filesystem calls never fail spontaneously (no permission errors, no disk
    full); the error cases kept are exactly the structural ones the code
    branches on (`os.IsNotExist`, EISDIR/ENOTDIR/ENOTEMPTY).
  * Timestamps (`CreatedAt`/`ModifiedAt`/`LastModified`) are not modelled;
    no claim mentions them.
  * Account and container names are treated as single path segments, as in
    the spec's data model (an account is "the first path segment under the
    base directory", a container "maps to one directory").  Blob names are
    slash-separated and may span several segments.  Names whose segments are
    empty or "." or ".." would be rewritten by Go's path cleaning and are
    excluded by the well-formedness predicates below wherever a theorem
    depends on path shapes.
  * The traversal order of `filepath.Walk` (lexical per directory) is
    abstracted to the order of the model's file list; the spec declares the
    listing order implementation-defined.
-/

deriving instance DecidableEq for Except

namespace BlueStack

/-- A filesystem path relative to the store's base directory, as a list of
path segments.  The base directory itself is `[]`. -/
abbrev Path := List String

/-- Raw blob content: a list of bytes. -/
abbrev Bytes := List Nat

/-- Outcome classification of a failing filesystem call, mirroring what the
engine distinguishes via `os.IsNotExist`: `notExist` for ENOENT, `other` for
everything else (EISDIR, ENOTDIR, ENOTEMPTY, ...). -/
inductive FsError where
  | notExist
  | other
deriving DecidableEq, Repr

/-- The fragment of the filesystem under the store's base directory: the
directories that exist and the regular files with their contents.  Membership
is what matters; the lists may contain duplicates. -/
structure FS where
  dirs : List Path
  files : List (Path × Bytes)
deriving DecidableEq, Repr

/-- Directory existence test. -/
def FS.isDir (fs : FS) (p : Path) : Bool := fs.dirs.contains p

/-- The content of the regular file at `p`, if one exists. -/
def FS.lookupFile (fs : FS) (p : Path) : Option Bytes :=
  (fs.files.find? (fun f => f.1 == p)).map (fun f => f.2)

/-- Regular-file existence test. -/
def FS.isFile (fs : FS) (p : Path) : Bool := (fs.lookupFile p).isSome

/-- `os.Stat` succeeds: something (directory or regular file) exists at `p`. -/
def FS.statExists (fs : FS) (p : Path) : Bool := fs.isDir p || fs.isFile p

/-- `os.MkdirAll p 0755`: creates the directory `p` and every missing
ancestor, succeeding silently when `p` already exists; fails (ENOTDIR) when a
regular file occupies `p` or one of its ancestors.  A failing call creates
nothing: on a consistent filesystem every ancestor of an existing file is
already a directory, so the recursion stops before creating anything.
`p.inits` enumerates all ancestors of `p`, including `[]` and `p` itself. -/
def FS.mkdirAll (fs : FS) (p : Path) : Except FsError FS :=
  if p.inits.any (fun q => fs.isFile q) then .error .other
  else .ok { fs with dirs := p.inits ++ fs.dirs }

/-- `os.WriteFile p content 0644`: truncating create-or-overwrite.  Fails when
`p` is a directory (EISDIR), when its parent directory is missing (ENOENT), or
when a regular file occupies a proper ancestor of `p` (ENOTDIR); otherwise it
atomically replaces the content at `p`.  `p.inits.dropLast` enumerates the
proper ancestors of `p`. -/
def FS.writeFile (fs : FS) (p : Path) (content : Bytes) : Except FsError FS :=
  if fs.isDir p then .error .other
  else if ! fs.isDir p.dropLast then .error .other
  else if p.inits.dropLast.any (fun q => fs.isFile q) then .error .other
  else .ok { fs with files := (p, content) :: fs.files.filter (fun f => f.1 != p) }

/-- `os.ReadFile p`: returns the content of the regular file at `p`; fails
with ENOENT (`notExist`) when nothing exists there, and with EISDIR/ENOTDIR
(`other`) when `p` is a directory or a regular file occupies a proper
ancestor of `p`. -/
def FS.readFile (fs : FS) (p : Path) : Except FsError Bytes :=
  match fs.lookupFile p with
  | some content => .ok content
  | none =>
      if fs.isDir p then .error .other
      else if p.inits.dropLast.any (fun q => fs.isFile q) then .error .other
      else .error .notExist

/-- `os.Remove p`: removes the regular file at `p`, or the directory at `p`
when it is empty.  Fails with ENOTEMPTY (`other`) on a non-empty directory,
with ENOTDIR (`other`) when a regular file occupies a proper ancestor, and
with ENOENT (`notExist`) when nothing exists at `p`. -/
def FS.removeEntry (fs : FS) (p : Path) : Except FsError FS :=
  if fs.isFile p then
    .ok { fs with files := fs.files.filter (fun f => f.1 != p) }
  else if fs.isDir p then
    if fs.dirs.any (fun d => p.isPrefixOf d && d != p)
        || fs.files.any (fun f => p.isPrefixOf f.1 && f.1 != p) then
      .error .other
    else
      .ok { fs with dirs := fs.dirs.filter (fun d => d != p) }
  else if p.inits.dropLast.any (fun q => fs.isFile q) then .error .other
  else .error .notExist

/-- `os.RemoveAll p`: removes `p` and everything below it; succeeds even when
nothing exists at `p`.  (Its error cases are I/O failures outside the model.) -/
def FS.removeAll (fs : FS) (p : Path) : FS :=
  { dirs := fs.dirs.filter (fun d => ! p.isPrefixOf d),
    files := fs.files.filter (fun f => ! p.isPrefixOf f.1) }

/-- Split a character list at '/' separators — the semantics of Go's
`strings.Split(s, "/")`, used to model how `filepath.Join` turns a
slash-separated blob name into path segments. -/
def splitChars : List Char → List (List Char)
  | [] => [[]]
  | c :: rest =>
      if c = '/' then [] :: splitChars rest
      else
        match splitChars rest with
        | s :: ss => (c :: s) :: ss
        | [] => [[c]]

/-- Path contribution of an account or container name in `filepath.Join`:
an empty component is skipped, a non-empty one contributes one segment
(names containing separators are outside the spec's data model; see the
header comment). -/
def seg (s : String) : Path := if s = "" then [] else [s]

/-- Path contribution of a (possibly hierarchical) blob name: empty names
contribute nothing, otherwise the name is split at '/'. -/
def blobSegs (b : String) : Path :=
  if b = "" then [] else (splitChars b.data).map (fun l => String.mk l)

/-- `containerKey`: the index key `fmt.Sprintf("%s/%s", account, containerName)`. -/
def containerKey (account containerName : String) : String :=
  account ++ "/" ++ containerName

/-- `containerPath`: `filepath.Join(s.baseDir, account, containerName)`. -/
def containerPath (account containerName : String) : Path :=
  seg account ++ seg containerName

/-- `blobPath`: `filepath.Join(s.containerPath(account, containerName), blobName)`. -/
def blobPath (account containerName blobName : String) : Path :=
  containerPath account containerName ++ blobSegs blobName

/-- Error kinds produced by the engine.  The Go code returns formatted error
strings; the adapter classifies them by substring.  Each constructor
corresponds to one `fmt.Errorf` site: `alreadyExists` to
"container ... already exists", `containerNotFound`/`blobNotFound` to
"... does not exist", `ioError` to the wrapped filesystem failures
("failed to ..."). -/
inductive BlobError where
  | alreadyExists
  | containerNotFound
  | blobNotFound
  | ioError (site : String)
deriving DecidableEq, Repr

/-- The state of a `FileBlobStore`: the in-memory container index (a set of
`account/container` keys, modelled as a membership list) and the filesystem
fragment below the base directory. -/
structure Store where
  index : List String
  fs : FS
deriving DecidableEq, Repr

/-- `NewFileBlobStore` on a fresh data directory: empty index, the base
directory exists, nothing else does. -/
def freshStore : Store := { index := [], fs := { dirs := [[]], files := [] } }

/-- `FileBlobStore.CreateContainer`. -/
def createContainer (s : Store) (account containerName : String) :
    Except BlobError Unit × Store :=
  if s.index.contains (containerKey account containerName) then
    (.error .alreadyExists, s)
  else
    match s.fs.mkdirAll (containerPath account containerName) with
    | .error _ => (.error (.ioError "create container directory"), s)
    | .ok fs1 => (.ok (), { index := containerKey account containerName :: s.index, fs := fs1 })

/-- `FileBlobStore.DeleteContainer`. -/
def deleteContainer (s : Store) (account containerName : String) :
    Except BlobError Unit × Store :=
  if ! s.index.contains (containerKey account containerName) then
    (.error .containerNotFound, s)
  else
    (.ok (), { index := s.index.filter (fun k => k != containerKey account containerName),
               fs := s.fs.removeAll (containerPath account containerName) })

/-- `FileBlobStore.ContainerExists`: a pure index lookup (the accompanying
Go error is always nil). -/
def containerExists (s : Store) (account containerName : String) : Bool :=
  s.index.contains (containerKey account containerName)

/-- The implicit-create step at the top of `PutBlob`: if the index does not
record the container, create its directory and mark the index. -/
def ensureContainer (s : Store) (account containerName : String) :
    Except BlobError Store :=
  if s.index.contains (containerKey account containerName) then .ok s
  else
    match s.fs.mkdirAll (containerPath account containerName) with
    | .error _ => .error (.ioError "ensure container directory")
    | .ok fs1 => .ok { index := containerKey account containerName :: s.index, fs := fs1 }

/-- `FileBlobStore.PutBlob`.  Content type and metadata are accepted but not
persisted (a TODO in the source).  Failures keep exactly the partial effects
the source keeps: a failure after the implicit container creation leaves the
container directory and index entry in place, and a failed write leaves the
directories created for the blob in place. -/
def putBlob (s : Store) (account containerName blobName : String)
    (content : Bytes) (contentType : String) (metadata : List (String × String)) :
    Except BlobError Unit × Store :=
  match ensureContainer s account containerName with
  | .error e => (.error e, s)
  | .ok s1 =>
      match s1.fs.mkdirAll (blobPath account containerName blobName).dropLast with
      | .error _ => (.error (.ioError "create blob directory"), s1)
      | .ok fs2 =>
          match fs2.writeFile (blobPath account containerName blobName) content with
          | .error _ => (.error (.ioError "write blob"), { s1 with fs := fs2 })
          | .ok fs3 => (.ok (), { s1 with fs := fs3 })

/-- The `Blob` record returned by `GetBlob` (timestamps omitted, see header). -/
structure Blob where
  name : String
  container : String
  account : String
  content : Bytes
  contentType : String
  size : Nat
  metadata : List (String × String)
deriving DecidableEq, Repr

/-- `FileBlobStore.GetBlob`.  The stat call after a successful read cannot
fail in the model; size is the file's length and content type and metadata
are the fixed defaults of the source. -/
def getBlob (s : Store) (account containerName blobName : String) :
    Except BlobError Blob :=
  match s.fs.readFile (blobPath account containerName blobName) with
  | .error .notExist => .error .blobNotFound
  | .error .other => .error (.ioError "read blob")
  | .ok content =>
      .ok { name := blobName, container := containerName, account := account,
            content := content, contentType := "application/octet-stream",
            size := content.length, metadata := [] }

/-- `FileBlobStore.DeleteBlob`. -/
def deleteBlob (s : Store) (account containerName blobName : String) :
    Except BlobError Unit × Store :=
  match s.fs.removeEntry (blobPath account containerName blobName) with
  | .error .notExist => (.error .blobNotFound, s)
  | .error .other => (.error (.ioError "delete blob"), s)
  | .ok fs1 => (.ok (), { s with fs := fs1 })

/-- A listing entry (`BlobInfo`; timestamp omitted, see header). -/
structure BlobInfo where
  name : String
  contentType : String
  size : Nat
  metadata : List (String × String)
deriving DecidableEq, Repr

/-- `filepath.Rel(containerPath, path)` followed by `filepath.ToSlash`: the
blob name of a file strictly below the walk root. -/
def relName (root p : Path) : String := String.intercalate "/" (p.drop root.length)

/-- `strings.HasPrefix` (what `filepath.HasPrefix` amounts to on slash paths). -/
def strStartsWith (pre s : String) : Bool := pre.data.isPrefixOf s.data

/-- The regular files visited by `filepath.Walk(containerPath, ...)` that
survive the `info.IsDir()` skip, paired with their blob names: all regular
files strictly below the root, or, in the degenerate case where the root is
itself a regular file, that single file under the relative name ".". -/
def walkFiles (fs : FS) (root : Path) : List (String × Bytes) :=
  if fs.isFile root then [(".", (fs.lookupFile root).getD [])]
  else
    fs.files.filterMap (fun f =>
      if root.isPrefixOf f.1 && f.1 != root then some (relName root f.1, f.2)
      else none)

/-- `FileBlobStore.ListBlobs`.  The source calls the filter string `prefix`;
it is named `pre` here.  The walk stops as soon as `maxResults > 0` entries
have been collected (`filepath.SkipAll`), so a positive cap takes the first
`maxResults` matching entries.  When `os.Stat` fails with something other
than ENOENT (a regular file at a proper ancestor of the container path), the
code falls through to the walk, whose root lstat error is propagated. -/
def listBlobs (s : Store) (account containerName pre : String) (maxResults : Int) :
    Except BlobError (List BlobInfo) :=
  let root := containerPath account containerName
  if ! s.fs.statExists root then
    if root.inits.dropLast.any (fun q => s.fs.isFile q) then
      .error (.ioError "walk container")
    else .error .containerNotFound
  else
    let collected := (walkFiles s.fs root).filter
      (fun e => pre == "" || strStartsWith pre e.1)
    let capped := if maxResults > 0 then collected.take maxResults.toNat else collected
    .ok (capped.map (fun e =>
      { name := e.1, contentType := "application/octet-stream",
        size := e.2.length, metadata := [] }))

/-- Statement abbreviation (used by the ListBlobs theorem): the regular
files strictly below the container directory whose relative slash-separated
name passes the filter string. -/
def matchingFiles (s : Store) (account containerName pre : String) :
    List (Path × Bytes) :=
  s.fs.files.filter (fun f =>
    (containerPath account containerName).isPrefixOf f.1
      && f.1 != containerPath account containerName
      && (pre == "" || strStartsWith pre
          (relName (containerPath account containerName) f.1)))

/-- One engine invocation with its arguments (the `BlobStore` interface). -/
inductive Op where
  | createContainer (account containerName : String)
  | deleteContainer (account containerName : String)
  | containerExists (account containerName : String)
  | putBlob (account containerName blobName : String)
      (content : Bytes) (contentType : String) (metadata : List (String × String))
  | getBlob (account containerName blobName : String)
  | deleteBlob (account containerName blobName : String)
  | listBlobs (account containerName pre : String) (maxResults : Int)
deriving DecidableEq, Repr

/-- The store state after one engine call.  Reads leave the state unchanged;
failed writes keep exactly the partial effects the source keeps. -/
def applyOp (s : Store) : Op → Store
  | .createContainer a c => (createContainer s a c).2
  | .deleteContainer a c => (deleteContainer s a c).2
  | .containerExists _ _ => s
  | .putBlob a c b v ct md => (putBlob s a c b v ct md).2
  | .getBlob _ _ _ => s
  | .deleteBlob a c b => (deleteBlob s a c b).2
  | .listBlobs _ _ _ _ => s

/-- The store reached from a fresh data directory by a sequence of engine
calls. -/
def run (ops : List Op) : Store := ops.foldl applyOp freshStore

/-- A well-formed account or container name: non-empty, free of path
separators, and not a relative-path dot name — exactly one path segment, as
in the spec's data model. -/
def wfName (s : String) : Bool :=
  s != "" && ! s.data.contains '/' && s != "." && s != ".."

/-- A well-formed blob name: non-empty, with every slash-separated segment
non-empty and different from "." and ".." (so Go's path cleaning leaves the
name unchanged).  The non-emptiness of the segment list is recorded
directly. -/
def wfBlobName (b : String) : Bool :=
  b != "" && ! (blobSegs b).isEmpty
    && (blobSegs b).all (fun t => t != "" && t != "." && t != "..")

/-- Well-formedness of one engine call: mutating calls use well-formed names.
Reads never change the state, so their arguments are unconstrained. -/
def wfOp : Op → Bool
  | .createContainer a c => wfName a && wfName c
  | .deleteContainer a c => wfName a && wfName c
  | .containerExists _ _ => true
  | .putBlob a c b _ _ _ => wfName a && wfName c && wfBlobName b
  | .getBlob _ _ _ => true
  | .deleteBlob a c b => wfName a && wfName c && wfBlobName b
  | .listBlobs _ _ _ _ => true

/-- Structural consistency of the modelled filesystem fragment: the base
directory exists, directories are closed under ancestors, and every regular
file is not itself a directory while all its proper ancestors are
directories. -/
def FSok (fs : FS) : Prop :=
  [] ∈ fs.dirs ∧
  (∀ d ∈ fs.dirs, ∀ q : Path, q <+: d → q ∈ fs.dirs) ∧
  (∀ f ∈ fs.files, f.1 ∉ fs.dirs ∧ ∀ q : Path, q <+: f.1 → q ≠ f.1 → q ∈ fs.dirs)

/-- Every regular file lies strictly below a container directory
`[account, container]`, so its path has at least three segments. -/
def FilesDeep (fs : FS) : Prop := ∀ f ∈ fs.files, 3 ≤ f.1.length

/-- The namespace-index invariant of the spec, over well-formed names: a
container key is in the index exactly when its directory exists on disk. -/
def IndexInv (s : Store) : Prop :=
  ∀ a c : String, wfName a = true → wfName c = true →
    (s.index.contains (containerKey a c) = true ↔
      s.fs.isDir (containerPath a c) = true)

/-- The reachable-state invariant maintained by well-formed engine calls. -/
def Inv (s : Store) : Prop := FSok s.fs ∧ FilesDeep s.fs ∧ IndexInv s

/-! ### Bridge lemmas between executable booleans and propositions -/

theorem contains_iff {α : Type} [BEq α] [LawfulBEq α] {l : List α} {x : α} :
    l.contains x = true ↔ x ∈ l := List.elem_iff

theorem contains_eq_false_iff {α : Type} [BEq α] [LawfulBEq α] {l : List α} {x : α} :
    l.contains x = false ↔ x ∉ l := by
  rw [← Bool.not_eq_true, not_iff_not]
  exact contains_iff

theorem isPrefixOf_iff {α : Type} [BEq α] [LawfulBEq α] {l₁ l₂ : List α} :
    l₁.isPrefixOf l₂ = true ↔ l₁ <+: l₂ := List.isPrefixOf_iff_prefix

theorem isDir_iff {fs : FS} {p : Path} : fs.isDir p = true ↔ p ∈ fs.dirs :=
  contains_iff

theorem isDir_eq_false_iff {fs : FS} {p : Path} : fs.isDir p = false ↔ p ∉ fs.dirs :=
  contains_eq_false_iff

theorem lookupFile_mem {fs : FS} {p : Path} {v : Bytes}
    (h : fs.lookupFile p = some v) : (p, v) ∈ fs.files := by
  unfold FS.lookupFile at h
  obtain ⟨f, hf, hv⟩ := Option.map_eq_some'.mp h
  have hp : f.1 = p := by simpa using List.find?_some hf
  have hfpv : f = (p, v) := Prod.ext hp hv
  exact hfpv ▸ List.mem_of_find?_eq_some hf

theorem isFile_iff {fs : FS} {p : Path} :
    fs.isFile p = true ↔ ∃ f ∈ fs.files, f.1 = p := by
  unfold FS.isFile FS.lookupFile
  cases hf : fs.files.find? (fun f => f.1 == p) with
  | none =>
      simp only [Option.map_none', Option.isSome_none, Bool.false_eq_true, false_iff]
      rintro ⟨f, hmem, hp⟩
      have := List.find?_eq_none.mp hf f hmem
      simp [hp] at this
  | some f =>
      simp only [Option.map_some', Option.isSome_some, true_iff]
      exact ⟨f, List.mem_of_find?_eq_some hf, by simpa using List.find?_some hf⟩

theorem isFile_eq_false_iff {fs : FS} {p : Path} :
    fs.isFile p = false ↔ ∀ f ∈ fs.files, f.1 ≠ p := by
  rw [← Bool.not_eq_true, isFile_iff]
  push_neg
  rfl

theorem lookupFile_eq_none_iff {fs : FS} {p : Path} :
    fs.lookupFile p = none ↔ ∀ f ∈ fs.files, f.1 ≠ p := by
  rw [← isFile_eq_false_iff]
  unfold FS.isFile
  cases h : fs.lookupFile p <;> simp [h]

/-! ### Path lemmas -/

theorem prefix_of_mem_inits {p q : Path} (h : q ∈ p.inits) : q <+: p :=
  (List.mem_inits q p).mp h

theorem mem_inits_intro {p q : Path} (h : q <+: p) : q ∈ p.inits :=
  (List.mem_inits q p).mpr h

/-- A prefix of fixed length is the `take` of that length, so two prefixes of
`[a, c] ++ r` of length 2 coincide with `[a, c]`. -/
theorem prefix_length_two {a c : String} {r q : Path}
    (h : q <+: [a, c] ++ r) (hlen : q.length = 2) : q = [a, c] := by
  have := List.prefix_iff_eq_take.mp h
  rw [this, hlen]
  have : ([a, c] : Path).length = 2 := rfl
  rw [← this, List.take_left]

theorem prefix_length_le {α : Type} {l₁ l₂ : List α} (h : l₁ <+: l₂) :
    l₁.length ≤ l₂.length := h.length_le

/-- A prefix of `[a, c] ++ r` of length at least 3 extends `[a, c]` strictly. -/
theorem prefix_extends_container {a c : String} {r q : Path}
    (h : q <+: [a, c] ++ r) (hlen : 3 ≤ q.length) : [a, c] <+: q ∧ q ≠ [a, c] := by
  have hq := List.prefix_iff_eq_take.mp h
  constructor
  · rw [List.prefix_iff_eq_take]
    show ([a, c] : Path) = q.take ([a, c] : Path).length
    have hl : ([a, c] : Path).length = 2 := rfl
    rw [hl]
    conv_rhs => rw [hq]
    rw [List.take_take]
    have hmin : 2 ⊓ q.length = 2 := by omega
    rw [hmin]
    have hleft := List.take_left ([a, c] : Path) r
    rw [hl] at hleft
    exact hleft.symm
  · intro hq2
    rw [hq2] at hlen
    simp at hlen

theorem inits_concat_eq {α : Type} (l : List α) (a : α) :
    (l ++ [a]).inits = l.inits ++ [l ++ [a]] := by
  simp [List.inits_append]

/-- The proper ancestors of a path are the entries of `inits.dropLast`. -/
theorem mem_inits_dropLast {p q : Path} :
    q ∈ p.inits.dropLast ↔ q <+: p ∧ q ≠ p := by
  induction p using List.reverseRecOn with
  | nil =>
      simp only [List.inits, List.dropLast_single, List.not_mem_nil, false_iff, not_and]
      intro hq
      simpa using List.prefix_nil.mp hq
  | append_singleton l a ih =>
      rw [inits_concat_eq, List.dropLast_concat]
      constructor
      · intro hq
        have hpre : q <+: l := prefix_of_mem_inits hq
        refine ⟨hpre.trans (List.prefix_append l [a]), ?_⟩
        intro hcontra
        have := hpre.length_le
        rw [hcontra] at this
        simp at this
      · rintro ⟨hq, hne⟩
        have hlen : q.length ≤ l.length := by
          have h1 := hq.length_le
          simp only [List.length_append, List.length_singleton] at h1
          by_cases h2 : q.length = l.length + 1
          · exact absurd (hq.eq_of_length (by simp [h2])) hne
          · omega
        have htake := List.prefix_iff_eq_take.mp hq
        rw [List.take_append_of_le_length hlen] at htake
        exact mem_inits_intro (htake ▸ List.take_prefix q.length l)

theorem any_eq_false_iff {α : Type} {f : α → Bool} {l : List α} :
    l.any f = false ↔ ∀ x ∈ l, f x = false := by
  rw [← Bool.not_eq_true, List.any_eq_true]
  push_neg
  simp [Bool.not_eq_true]

/-! ### Filesystem operation characterizations -/

theorem mkdirAll_ok_iff {fs fs' : FS} {p : Path} :
    fs.mkdirAll p = .ok fs' ↔
      (∀ q, q <+: p → fs.isFile q = false) ∧
        fs' = { dirs := p.inits ++ fs.dirs, files := fs.files } := by
  unfold FS.mkdirAll
  by_cases h : p.inits.any (fun q => fs.isFile q) = true
  · rw [if_pos h]
    obtain ⟨q, hq, hfile⟩ := List.any_eq_true.mp h
    constructor
    · intro hc; cases hc
    · rintro ⟨hall, -⟩
      rw [hall q (prefix_of_mem_inits hq)] at hfile
      cases hfile
  · rw [if_neg h]
    have hall : ∀ q, q <+: p → fs.isFile q = false := by
      intro q hq
      exact any_eq_false_iff.mp (Bool.not_eq_true _ ▸ h) q (mem_inits_intro hq)
    constructor
    · intro hok
      injection hok with h2
      exact ⟨hall, h2.symm⟩
    · rintro ⟨-, rfl⟩; rfl

theorem mkdirAll_error_of_file {fs : FS} {p q : Path}
    (hq : q <+: p) (hfile : fs.isFile q = true) :
    fs.mkdirAll p = .error .other := by
  unfold FS.mkdirAll
  rw [if_pos (List.any_eq_true.mpr ⟨q, mem_inits_intro hq, hfile⟩)]

theorem writeFile_ok_iff {fs fs' : FS} {p : Path} {v : Bytes} :
    fs.writeFile p v = .ok fs' ↔
      fs.isDir p = false ∧ fs.isDir p.dropLast = true ∧
        (∀ q, q <+: p → q ≠ p → fs.isFile q = false) ∧
        fs' = { dirs := fs.dirs,
                files := (p, v) :: fs.files.filter (fun f => f.1 != p) } := by
  unfold FS.writeFile
  by_cases h1 : fs.isDir p = true
  · rw [if_pos h1]
    constructor
    · intro hc; cases hc
    · rintro ⟨hc, -, -, -⟩; rw [h1] at hc; cases hc
  · rw [if_neg h1]
    rw [Bool.not_eq_true] at h1
    by_cases h2 : fs.isDir p.dropLast = true
    · rw [if_neg (by simp [h2])]
      by_cases h3 : p.inits.dropLast.any (fun q => fs.isFile q) = true
      · rw [if_pos h3]
        obtain ⟨q, hq, hfile⟩ := List.any_eq_true.mp h3
        obtain ⟨hpre, hne⟩ := mem_inits_dropLast.mp hq
        constructor
        · intro hc; cases hc
        · rintro ⟨-, -, hall, -⟩
          rw [hall q hpre hne] at hfile
          cases hfile
      · rw [if_neg h3]
        have hall : ∀ q, q <+: p → q ≠ p → fs.isFile q = false := by
          intro q hq hne
          exact any_eq_false_iff.mp (Bool.not_eq_true _ ▸ h3) q
            (mem_inits_dropLast.mpr ⟨hq, hne⟩)
        constructor
        · intro hok
          injection hok with h4
          exact ⟨h1, h2, hall, h4.symm⟩
        · rintro ⟨-, -, -, rfl⟩; rfl
    · rw [if_pos (by simp [Bool.not_eq_true] at h2 ⊢; exact h2)]
      constructor
      · intro hc; cases hc
      · rintro ⟨-, hc, -, -⟩; exact absurd hc h2

theorem removeEntry_ok_file {fs : FS} {p : Path} (h : fs.isFile p = true) :
    fs.removeEntry p =
      .ok { dirs := fs.dirs, files := fs.files.filter (fun f => f.1 != p) } := by
  unfold FS.removeEntry
  rw [if_pos h]

theorem removeEntry_ok_cases {fs fs' : FS} {p : Path}
    (h : fs.removeEntry p = .ok fs') :
    (fs.isFile p = true ∧
      fs' = { dirs := fs.dirs, files := fs.files.filter (fun f => f.1 != p) }) ∨
    (fs.isFile p = false ∧ fs.isDir p = true ∧
      (∀ d ∈ fs.dirs, p <+: d → d = p) ∧
      (∀ f ∈ fs.files, p <+: f.1 → f.1 = p) ∧
      fs' = { dirs := fs.dirs.filter (fun d => d != p), files := fs.files }) := by
  unfold FS.removeEntry at h
  by_cases h1 : fs.isFile p = true
  · rw [if_pos h1] at h
    injection h with h2
    exact Or.inl ⟨h1, h2.symm⟩
  · rw [if_neg h1] at h
    rw [Bool.not_eq_true] at h1
    by_cases h2 : fs.isDir p = true
    · rw [if_pos h2] at h
      by_cases h3 : (fs.dirs.any (fun d => p.isPrefixOf d && d != p)
          || fs.files.any (fun f => p.isPrefixOf f.1 && f.1 != p)) = true
      · rw [if_pos h3] at h; cases h
      · rw [if_neg h3] at h
        injection h with h4
        rw [Bool.not_eq_true, Bool.or_eq_false_iff] at h3
        obtain ⟨h3d, h3f⟩ := h3
        refine Or.inr ⟨h1, h2, ?_, ?_, h4.symm⟩
        · intro d hd hpre
          have := any_eq_false_iff.mp h3d d hd
          rw [Bool.and_eq_false_iff] at this
          rcases this with hc | hc
          · rw [← isPrefixOf_iff] at hpre
            rw [hpre] at hc
            cases hc
          · by_contra hne
            rw [bne_eq_false_iff_eq] at hc
            exact hne hc
        · intro f hf hpre
          have := any_eq_false_iff.mp h3f f hf
          rw [Bool.and_eq_false_iff] at this
          rcases this with hc | hc
          · rw [← isPrefixOf_iff] at hpre
            rw [hpre] at hc
            cases hc
          · by_contra hne
            rw [bne_eq_false_iff_eq] at hc
            exact hne hc
    · rw [if_neg h2] at h
      by_cases h3 : p.inits.dropLast.any (fun q => fs.isFile q) = true
      · rw [if_pos h3] at h; cases h
      · rw [if_neg h3] at h; cases h

theorem removeEntry_notExist_iff {fs : FS} {p : Path}
    (hdir : fs.isDir p = false)
    (hanc : ∀ q, q <+: p → q ≠ p → fs.isFile q = false) :
    (fs.removeEntry p = .error .notExist ↔ fs.isFile p = false) := by
  unfold FS.removeEntry
  by_cases h1 : fs.isFile p = true
  · rw [if_pos h1, h1]
    constructor
    · intro hc; cases hc
    · intro hc; cases hc
  · rw [if_neg h1, if_neg (by simp [hdir]), Bool.not_eq_true] at *
    rw [if_neg (by
      rw [Bool.not_eq_true, any_eq_false_iff]
      intro q hq
      obtain ⟨hpre, hne⟩ := mem_inits_dropLast.mp hq
      exact hanc q hpre hne)]
    simp [h1]

theorem removeAll_dirs_mem {fs : FS} {p d : Path} :
    d ∈ (fs.removeAll p).dirs ↔ d ∈ fs.dirs ∧ ¬ p <+: d := by
  unfold FS.removeAll
  simp only [List.mem_filter, Bool.not_eq_true']
  rw [← Bool.not_eq_true, isPrefixOf_iff]

theorem removeAll_files_mem {fs : FS} {p : Path} {f : Path × Bytes} :
    f ∈ (fs.removeAll p).files ↔ f ∈ fs.files ∧ ¬ p <+: f.1 := by
  unfold FS.removeAll
  simp only [List.mem_filter, Bool.not_eq_true']
  rw [← Bool.not_eq_true, isPrefixOf_iff]

/-! ### Name and key lemmas -/

theorem wfName_iff {s : String} :
    wfName s = true ↔ s ≠ "" ∧ '/' ∉ s.data ∧ s ≠ "." ∧ s ≠ ".." := by
  unfold wfName
  simp only [Bool.and_eq_true, bne_iff_ne, Bool.not_eq_true']
  rw [contains_eq_false_iff]
  tauto

theorem seg_of_ne_empty {s : String} (h : s ≠ "") : seg s = [s] := by
  simp [seg, h]

theorem containerPath_eq {a c : String} (ha : a ≠ "") (hc : c ≠ "") :
    containerPath a c = [a, c] := by
  simp [containerPath, seg_of_ne_empty ha, seg_of_ne_empty hc]

theorem containerPath_eq_of_wf {a c : String} (ha : wfName a = true)
    (hc : wfName c = true) : containerPath a c = [a, c] :=
  containerPath_eq (wfName_iff.mp ha).1 (wfName_iff.mp hc).1

/-- Splitting a slash-free concatenation `l₁ ++ '/' :: r₁` recovers the parts. -/
theorem append_slash_inj {l₁ r₁ l₂ r₂ : List Char}
    (h₁ : '/' ∉ l₁) (h₂ : '/' ∉ l₂)
    (h : l₁ ++ '/' :: r₁ = l₂ ++ '/' :: r₂) : l₁ = l₂ ∧ r₁ = r₂ := by
  induction l₁ generalizing l₂ with
  | nil =>
      cases l₂ with
      | nil => simpa using h
      | cons x xs =>
          simp only [List.nil_append, List.cons_append, List.cons.injEq] at h
          exact absurd (h.1 ▸ List.mem_cons_self x xs) h₂
  | cons y ys ih =>
      cases l₂ with
      | nil =>
          simp only [List.nil_append, List.cons_append, List.cons.injEq] at h
          exact absurd (h.1.symm ▸ List.mem_cons_self y ys) h₁
      | cons x xs =>
          simp only [List.cons_append, List.cons.injEq] at h
          have h₁' : '/' ∉ ys := fun hm => h₁ (List.mem_cons_of_mem y hm)
          have h₂' : '/' ∉ xs := fun hm => h₂ (List.mem_cons_of_mem x hm)
          obtain ⟨hys, hr⟩ := ih h₁' h₂' h.2
          exact ⟨by rw [h.1, hys], hr⟩

theorem wfBlobName_ne_nil {b : String} (h : wfBlobName b = true) :
    blobSegs b ≠ [] := by
  unfold wfBlobName at h
  simp only [Bool.and_eq_true] at h
  intro hnil
  have := h.1.2
  rw [hnil] at this
  simp at this

theorem blobPath_eq {a c b : String} (ha : wfName a = true) (hc : wfName c = true) :
    blobPath a c b = [a, c] ++ blobSegs b := by
  unfold blobPath
  rw [containerPath_eq_of_wf ha hc]

theorem blobPath_length {a c b : String} (ha : wfName a = true)
    (hc : wfName c = true) (hb : wfBlobName b = true) :
    3 ≤ (blobPath a c b).length := by
  rw [blobPath_eq ha hc, List.length_append]
  have := wfBlobName_ne_nil hb
  have : 1 ≤ (blobSegs b).length := List.length_pos.mpr this
  simp only [List.length_cons, List.length_singleton]
  omega

/-- A proper prefix of `p` is a prefix of `p.dropLast`. -/
theorem proper_prefix_dropLast {p q : Path} (h : q <+: p) (hne : q ≠ p) :
    q <+: p.dropLast := by
  have hlt : q.length < p.length := by
    rcases Nat.lt_or_ge q.length p.length with hl | hl
    · exact hl
    · exact absurd (h.eq_of_length (Nat.le_antisymm h.length_le hl)) hne
  have htake := List.prefix_iff_eq_take.mp h
  have hmin : q.length ⊓ (p.length - 1) = q.length := by omega
  rw [List.prefix_iff_eq_take, List.dropLast_eq_take, List.take_take, hmin]
  exact htake

/-- On well-formed (slash-free) names, the index key determines the pair. -/
theorem containerKey_inj {a c a' c' : String}
    (ha : wfName a = true) (hc : wfName c = true)
    (ha' : wfName a' = true) (hc' : wfName c' = true)
    (h : containerKey a c = containerKey a' c') : a = a' ∧ c = c' := by
  have hd : a.data ++ '/' :: c.data = a'.data ++ '/' :: c'.data := by
    have := congrArg String.data h
    simpa [containerKey, String.data_append] using this
  obtain ⟨hda, hdc⟩ :=
    append_slash_inj (wfName_iff.mp ha).2.1 (wfName_iff.mp ha').2.1 hd
  exact ⟨String.ext hda, String.ext hdc⟩

/-! ### Preservation of filesystem consistency -/

theorem fsok_mkdirAll {fs fs' : FS} {p : Path} (hok : FSok fs)
    (h : fs.mkdirAll p = .ok fs') : FSok fs' := by
  obtain ⟨hnof, rfl⟩ := mkdirAll_ok_iff.mp h
  obtain ⟨hbase, hclosed, hfiles⟩ := hok
  refine ⟨List.mem_append.mpr (Or.inr hbase), ?_, ?_⟩
  · intro d hd q hq
    rcases List.mem_append.mp hd with hd | hd
    · exact List.mem_append.mpr
        (Or.inl (mem_inits_intro (hq.trans (prefix_of_mem_inits hd))))
    · exact List.mem_append.mpr (Or.inr (hclosed d hd q hq))
  · intro f hf
    obtain ⟨hnod, hanc⟩ := hfiles f hf
    constructor
    · intro hmem
      rcases List.mem_append.mp hmem with hmem | hmem
      · have : fs.isFile f.1 = true := isFile_iff.mpr ⟨f, hf, rfl⟩
        rw [hnof f.1 (prefix_of_mem_inits hmem)] at this
        cases this
      · exact hnod hmem
    · intro q hq hne
      exact List.mem_append.mpr (Or.inr (hanc q hq hne))

theorem fsok_writeFile {fs fs' : FS} {p : Path} {v : Bytes} (hok : FSok fs)
    (h : fs.writeFile p v = .ok fs') : FSok fs' := by
  obtain ⟨hnd, hpar, hanc0, rfl⟩ := writeFile_ok_iff.mp h
  obtain ⟨hbase, hclosed, hfiles⟩ := hok
  refine ⟨hbase, hclosed, ?_⟩
  intro f hf
  rcases List.mem_cons.mp hf with rfl | hf
  · refine ⟨isDir_eq_false_iff.mp hnd, ?_⟩
    intro q hq hne
    exact hclosed p.dropLast (isDir_iff.mp hpar) q (proper_prefix_dropLast hq hne)
  · exact hfiles f (List.mem_filter.mp hf).1

theorem fsok_removeEntry {fs fs' : FS} {p : Path} (hok : FSok fs) (hp : p ≠ [])
    (h : fs.removeEntry p = .ok fs') : FSok fs' := by
  obtain ⟨hbase, hclosed, hfiles⟩ := hok
  rcases removeEntry_ok_cases h with ⟨hfile, rfl⟩ | ⟨hfile, hdir, hed, hef, rfl⟩
  · exact ⟨hbase, hclosed, fun f hf => hfiles f (List.mem_filter.mp hf).1⟩
  · refine ⟨?_, ?_, ?_⟩
    · exact List.mem_filter.mpr ⟨hbase, by rw [bne_iff_ne]; exact fun hc => hp hc.symm⟩
    · intro d hd q hq
      obtain ⟨hd, hdne⟩ := List.mem_filter.mp hd
      refine List.mem_filter.mpr ⟨hclosed d hd q hq, ?_⟩
      rw [bne_iff_ne]
      intro heq
      rw [heq] at hq
      rw [bne_iff_ne] at hdne
      exact hdne (hed d hd hq)
    · intro f hf
      obtain ⟨hnod, hanc⟩ := hfiles f hf
      constructor
      · intro hmem
        exact hnod (List.mem_filter.mp hmem).1
      · intro q hq hne
        refine List.mem_filter.mpr ⟨hanc q hq hne, ?_⟩
        rw [bne_iff_ne]
        intro heq
        rw [heq] at hq
        exact hne (heq.trans (hef f hf hq).symm)

theorem fsok_removeAll {fs : FS} {p : Path} (hok : FSok fs) (hp : p ≠ []) :
    FSok (fs.removeAll p) := by
  obtain ⟨hbase, hclosed, hfiles⟩ := hok
  refine ⟨?_, ?_, ?_⟩
  · exact removeAll_dirs_mem.mpr ⟨hbase, fun hpre => hp (List.prefix_nil.mp hpre)⟩
  · intro d hd q hq
    obtain ⟨hd, hnp⟩ := removeAll_dirs_mem.mp hd
    exact removeAll_dirs_mem.mpr
      ⟨hclosed d hd q hq, fun hpq => hnp (hpq.trans hq)⟩
  · intro f hf
    obtain ⟨hf, hnp⟩ := removeAll_files_mem.mp hf
    obtain ⟨hnod, hanc⟩ := hfiles f hf
    constructor
    · intro hmem
      exact hnod (removeAll_dirs_mem.mp hmem).1
    · intro q hq hne
      exact removeAll_dirs_mem.mpr
        ⟨hanc q hq hne, fun hpq => hnp (hpq.trans hq)⟩

/-! ### Preservation of the namespace-index invariant -/

theorem mkdirAll_error_other {fs : FS} {p : Path} {e : FsError}
    (h : fs.mkdirAll p = .error e) : e = .other := by
  unfold FS.mkdirAll at h
  split at h
  · injection h with h1; exact h1.symm
  · cases h

theorem ensureContainer_ok_cases {s s1 : Store} {a c : String}
    (h : ensureContainer s a c = .ok s1) :
    (s.index.contains (containerKey a c) = true ∧ s1 = s) ∨
    (s.index.contains (containerKey a c) = false ∧
      ∃ fs1, s.fs.mkdirAll (containerPath a c) = .ok fs1 ∧
        s1 = { index := containerKey a c :: s.index, fs := fs1 }) := by
  unfold ensureContainer at h
  by_cases hkey : s.index.contains (containerKey a c) = true
  · rw [if_pos hkey] at h
    injection h with h1
    exact Or.inl ⟨hkey, h1.symm⟩
  · rw [if_neg hkey] at h
    rw [Bool.not_eq_true] at hkey
    cases hmk : s.fs.mkdirAll (containerPath a c) with
    | error e => rw [hmk] at h; cases h
    | ok fs1 =>
        rw [hmk] at h
        injection h with h1
        exact Or.inr ⟨hkey, fs1, rfl, h1.symm⟩

theorem indexInv_congr {s t : Store}
    (hidx : ∀ k : String, k ∈ t.index ↔ k ∈ s.index)
    (hdirs : ∀ d : Path, d ∈ t.fs.dirs ↔ d ∈ s.fs.dirs)
    (hinv : IndexInv s) : IndexInv t := by
  intro a c ha hc
  rw [contains_iff, isDir_iff, hidx, hdirs, ← contains_iff, ← isDir_iff]
  exact hinv a c ha hc

/-- Marking a key and creating its directory (with possibly deeper
subdirectories below it) preserves the index invariant. -/
theorem indexInv_mark_addDirs {s : Store} {a c : String} (rest : Path)
    (files' : List (Path × Bytes))
    (hinv : IndexInv s) (ha : wfName a = true) (hc : wfName c = true) :
    IndexInv { index := containerKey a c :: s.index,
               fs := { dirs := ([a, c] ++ rest).inits ++ s.fs.dirs,
                       files := files' } } := by
  intro α γ hα hγ
  dsimp only
  rw [contains_iff, isDir_iff, containerPath_eq_of_wf hα hγ]
  simp only [List.mem_cons, List.mem_append]
  have hiff := hinv α γ hα hγ
  rw [contains_iff, isDir_iff, containerPath_eq_of_wf hα hγ] at hiff
  constructor
  · rintro (heq | hmem)
    · obtain ⟨rfl, rfl⟩ := containerKey_inj hα hγ ha hc heq
      exact Or.inl (mem_inits_intro (List.prefix_append [α, γ] rest))
    · exact Or.inr (hiff.mp hmem)
  · rintro (hin | hmem)
    · have heq2 : ([α, γ] : Path) = [a, c] :=
        prefix_length_two (prefix_of_mem_inits hin) rfl
      injection heq2 with h1 h2
      injection h2 with h2 h3
      left
      rw [h1, h2]
    · exact Or.inr (hiff.mpr hmem)

/-- Creating directories at or below an already-marked container directory
preserves the index invariant. -/
theorem indexInv_addDirs {s : Store} {a c : String} {rest : Path}
    {files' : List (Path × Bytes)}
    (hinv : IndexInv s) (ha : wfName a = true) (hc : wfName c = true)
    (hkey : containerKey a c ∈ s.index) :
    IndexInv { index := s.index,
               fs := { dirs := ([a, c] ++ rest).inits ++ s.fs.dirs,
                       files := files' } } := by
  intro α γ hα hγ
  dsimp only
  rw [contains_iff, isDir_iff, containerPath_eq_of_wf hα hγ]
  simp only [List.mem_append]
  have hiff := hinv α γ hα hγ
  rw [contains_iff, isDir_iff, containerPath_eq_of_wf hα hγ] at hiff
  constructor
  · intro hmem
    exact Or.inr (hiff.mp hmem)
  · rintro (hin | hmem)
    · have heq2 : ([α, γ] : Path) = [a, c] :=
        prefix_length_two (prefix_of_mem_inits hin) rfl
      injection heq2 with h1 h2
      injection h2 with h2 h3
      rw [h1, h2]
      exact hkey
    · exact hiff.mpr hmem

/-- Removing a single entry at depth 3 or more preserves the index
invariant (container directories have depth 2). -/
theorem indexInv_filter_dirs {s : Store} {p : Path} (hp : 3 ≤ p.length)
    {files' : List (Path × Bytes)} (hinv : IndexInv s) :
    IndexInv { index := s.index,
               fs := { dirs := s.fs.dirs.filter (fun d => d != p),
                       files := files' } } := by
  intro α γ hα hγ
  dsimp only
  rw [contains_iff, isDir_iff, containerPath_eq_of_wf hα hγ]
  have hiff := hinv α γ hα hγ
  rw [contains_iff, isDir_iff, containerPath_eq_of_wf hα hγ] at hiff
  rw [List.mem_filter]
  constructor
  · intro hmem
    refine ⟨hiff.mp hmem, ?_⟩
    rw [bne_iff_ne]
    intro heq
    rw [← heq] at hp
    simp at hp
  · rintro ⟨hmem, -⟩
    exact hiff.mpr hmem

/-! ### Invariant preservation by the engine operations -/

theorem inv_createContainer {s : Store} {a c : String} (hinv : Inv s)
    (ha : wfName a = true) (hc : wfName c = true) :
    Inv (createContainer s a c).2 := by
  obtain ⟨hok, hdeep, hidx⟩ := hinv
  unfold createContainer
  by_cases hkey : s.index.contains (containerKey a c) = true
  · rw [if_pos hkey]
    exact ⟨hok, hdeep, hidx⟩
  · rw [if_neg hkey]
    cases hmk : s.fs.mkdirAll (containerPath a c) with
    | error e => exact ⟨hok, hdeep, hidx⟩
    | ok fs1 =>
        obtain ⟨hnof, hfs1⟩ := mkdirAll_ok_iff.mp hmk
        refine ⟨fsok_mkdirAll hok hmk, ?_, ?_⟩
        · rw [hfs1]; exact hdeep
        · rw [hfs1, containerPath_eq_of_wf ha hc]
          have hmark := indexInv_mark_addDirs [] s.fs.files hidx ha hc
          rw [List.append_nil] at hmark
          exact hmark

theorem inv_deleteContainer {s : Store} {a c : String} (hinv : Inv s)
    (ha : wfName a = true) (hc : wfName c = true) :
    Inv (deleteContainer s a c).2 := by
  obtain ⟨hok, hdeep, hidx⟩ := hinv
  unfold deleteContainer
  by_cases hkey : s.index.contains (containerKey a c) = true
  · rw [if_neg (by rw [Bool.not_eq_true', hkey]; simp)]
    refine ⟨?_, ?_, ?_⟩
    · apply fsok_removeAll hok
      rw [containerPath_eq_of_wf ha hc]
      simp
    · intro f hf
      exact hdeep f (removeAll_files_mem.mp hf).1
    · intro α γ hα hγ
      dsimp only
      have hiff := hidx α γ hα hγ
      rw [contains_iff, isDir_iff, containerPath_eq_of_wf hα hγ] at hiff ⊢
      rw [List.mem_filter, removeAll_dirs_mem, containerPath_eq_of_wf ha hc]
      constructor
      · rintro ⟨hmem, hne⟩
        refine ⟨hiff.mp hmem, ?_⟩
        intro hpre
        have heq := hpre.eq_of_length rfl
        rw [bne_iff_ne] at hne
        injection heq with h1 h2
        injection h2 with h2 h3
        exact hne (by rw [← h1, ← h2])
      · rintro ⟨hmem, hnp⟩
        refine ⟨hiff.mpr hmem, ?_⟩
        rw [bne_iff_ne]
        intro heq
        obtain ⟨rfl, rfl⟩ := containerKey_inj hα hγ ha hc heq
        exact hnp (List.prefix_refl _)
  · rw [if_pos (by rw [Bool.not_eq_true] at hkey; rw [Bool.not_eq_true']; exact hkey)]
    exact ⟨hok, hdeep, hidx⟩

theorem inv_putBlob {s : Store} {a c b : String} {v : Bytes} {ct : String}
    {md : List (String × String)} (hinv : Inv s)
    (ha : wfName a = true) (hc : wfName c = true) (hb : wfBlobName b = true) :
    Inv (putBlob s a c b v ct md).2 := by
  obtain ⟨hok, hdeep, hidx⟩ := hinv
  unfold putBlob
  cases hens : ensureContainer s a c with
  | error e => exact ⟨hok, hdeep, hidx⟩
  | ok s1 =>
      have hs1 : Inv s1 := by
        rcases ensureContainer_ok_cases hens with ⟨hkey, rfl⟩ | ⟨hkey, fs1, hmk, rfl⟩
        · exact ⟨hok, hdeep, hidx⟩
        · obtain ⟨hnof, hfs1⟩ := mkdirAll_ok_iff.mp hmk
          refine ⟨fsok_mkdirAll hok hmk, ?_, ?_⟩
          · rw [hfs1]; exact hdeep
          · dsimp only
            rw [hfs1, containerPath_eq_of_wf ha hc]
            have hmark := indexInv_mark_addDirs [] s.fs.files hidx ha hc
            rw [List.append_nil] at hmark
            exact hmark
      have hkey1 : containerKey a c ∈ s1.index := by
        rcases ensureContainer_ok_cases hens with ⟨hkey, rfl⟩ | ⟨hkey, fs1, hmk, rfl⟩
        · exact contains_iff.mp hkey
        · exact List.mem_cons_self _ _
      obtain ⟨hok1, hdeep1, hidx1⟩ := hs1
      dsimp only
      cases hmk2 : s1.fs.mkdirAll (blobPath a c b).dropLast with
      | error e => exact ⟨hok1, hdeep1, hidx1⟩
      | ok fs2 =>
          dsimp only
          obtain ⟨hnof2, hfs2⟩ := mkdirAll_ok_iff.mp hmk2
          have hok2 : FSok fs2 := fsok_mkdirAll hok1 hmk2
          have hdeep2 : FilesDeep fs2 := by rw [hfs2]; exact hdeep1
          have hidx2 : IndexInv { s1 with fs := fs2 } := by
            rw [hfs2]
            have hdrop : (blobPath a c b).dropLast
                = [a, c] ++ (blobSegs b).dropLast := by
              rw [blobPath_eq ha hc]
              exact List.dropLast_append_of_ne_nil _ (wfBlobName_ne_nil hb)
            rw [hdrop]
            exact indexInv_addDirs hidx1 ha hc hkey1
          cases hwr : fs2.writeFile (blobPath a c b) v with
          | error e => exact ⟨hok2, hdeep2, hidx2⟩
          | ok fs3 =>
              dsimp only
              obtain ⟨hnd3, hpar3, hanc3, hfs3⟩ := writeFile_ok_iff.mp hwr
              refine ⟨fsok_writeFile hok2 hwr, ?_, ?_⟩
              · rw [hfs3]
                intro f hf
                rcases List.mem_cons.mp hf with rfl | hf
                · exact blobPath_length ha hc hb
                · exact hdeep2 f (List.mem_filter.mp hf).1
              · exact indexInv_congr (s := { s1 with fs := fs2 })
                  (fun k => Iff.rfl) (fun d => by rw [hfs3]) hidx2

theorem inv_deleteBlob {s : Store} {a c b : String} (hinv : Inv s)
    (ha : wfName a = true) (hc : wfName c = true) (hb : wfBlobName b = true) :
    Inv (deleteBlob s a c b).2 := by
  obtain ⟨hok, hdeep, hidx⟩ := hinv
  unfold deleteBlob
  cases hrm : s.fs.removeEntry (blobPath a c b) with
  | error e => cases e <;> exact ⟨hok, hdeep, hidx⟩
  | ok fs1 =>
      have hplen : 3 ≤ (blobPath a c b).length := blobPath_length ha hc hb
      have hpne : blobPath a c b ≠ [] := by
        intro hnil
        rw [hnil] at hplen
        simp at hplen
      refine ⟨fsok_removeEntry hok hpne hrm, ?_, ?_⟩
      · rcases removeEntry_ok_cases hrm with ⟨hfile, rfl⟩ | ⟨hfile, hdir, hed, hef, rfl⟩
        · intro f hf
          exact hdeep f (List.mem_filter.mp hf).1
        · exact hdeep
      · rcases removeEntry_ok_cases hrm with ⟨hfile, rfl⟩ | ⟨hfile, hdir, hed, hef, rfl⟩
        · exact indexInv_congr (fun k => Iff.rfl) (fun d => Iff.rfl) hidx
        · exact indexInv_filter_dirs hplen hidx

theorem inv_freshStore : Inv freshStore := by
  refine ⟨⟨List.mem_singleton.mpr rfl, ?_, ?_⟩, ?_, ?_⟩
  · intro d hd q hq
    have hd2 : d ∈ [([] : Path)] := hd
    rw [List.mem_singleton] at hd2
    subst hd2
    rw [List.prefix_nil] at hq
    subst hq
    exact List.mem_singleton.mpr rfl
  · intro f hf
    cases hf
  · intro f hf
    cases hf
  · intro α γ hα hγ
    rw [contains_iff, isDir_iff]
    constructor
    · intro h
      cases h
    · intro h
      rw [containerPath_eq_of_wf hα hγ] at h
      have h2 : ([α, γ] : Path) ∈ [([] : Path)] := h
      rw [List.mem_singleton] at h2
      simp at h2

theorem inv_applyOp {s : Store} {op : Op} (hinv : Inv s) (hop : wfOp op = true) :
    Inv (applyOp s op) := by
  cases op with
  | createContainer a c =>
      simp only [wfOp, Bool.and_eq_true] at hop
      exact inv_createContainer hinv hop.1 hop.2
  | deleteContainer a c =>
      simp only [wfOp, Bool.and_eq_true] at hop
      exact inv_deleteContainer hinv hop.1 hop.2
  | containerExists a c => exact hinv
  | putBlob a c b v ct md =>
      simp only [wfOp, Bool.and_eq_true] at hop
      exact inv_putBlob hinv hop.1.1 hop.1.2 hop.2
  | getBlob a c b => exact hinv
  | deleteBlob a c b =>
      simp only [wfOp, Bool.and_eq_true] at hop
      exact inv_deleteBlob hinv hop.1.1 hop.1.2 hop.2
  | listBlobs a c pre mr => exact hinv

theorem inv_foldl {s : Store} (hinv : Inv s) (ops : List Op)
    (h : ∀ op ∈ ops, wfOp op = true) : Inv (ops.foldl applyOp s) := by
  induction ops generalizing s with
  | nil => exact hinv
  | cons op rest ih =>
      rw [List.foldl_cons]
      exact ih (inv_applyOp hinv (h op (List.mem_cons_self _ _)))
        (fun o ho => h o (List.mem_cons_of_mem _ ho))

/-- Every store reached from a fresh data directory by well-formed engine
calls satisfies the combined invariant. -/
theorem inv_run (ops : List Op) (h : ∀ op ∈ ops, wfOp op = true) :
    Inv (run ops) :=
  inv_foldl inv_freshStore ops h

/-! ### Operation-level helper lemmas -/

theorem lookupFile_write_head {fs : FS} {p : Path} {v : Bytes} :
    (FS.mk fs.dirs ((p, v) :: fs.files.filter (fun f => f.1 != p))).lookupFile p
      = some v := by
  unfold FS.lookupFile
  rw [List.find?_cons_of_pos _ (by simp)]
  rfl

theorem putBlob_ok_state {s : Store} {a c b : String} {v : Bytes} {ct : String}
    {md : List (String × String)} {s' : Store}
    (h : putBlob s a c b v ct md = (.ok (), s')) :
    s'.fs.lookupFile (blobPath a c b) = some v := by
  unfold putBlob at h
  cases hens : ensureContainer s a c with
  | error e => rw [hens] at h; simp at h
  | ok s1 =>
      rw [hens] at h
      dsimp only at h
      cases hmk2 : s1.fs.mkdirAll (blobPath a c b).dropLast with
      | error e => rw [hmk2] at h; simp at h
      | ok fs2 =>
          rw [hmk2] at h
          dsimp only at h
          cases hwr : fs2.writeFile (blobPath a c b) v with
          | error e => rw [hwr] at h; simp at h
          | ok fs3 =>
              rw [hwr] at h
              dsimp only at h
              simp only [Prod.mk.injEq] at h
              obtain ⟨hnd, hpar, hanc, hfs3⟩ := writeFile_ok_iff.mp hwr
              rw [← h.2]
              show fs3.lookupFile (blobPath a c b) = some v
              rw [hfs3]
              exact lookupFile_write_head

theorem readFile_of_lookup {fs : FS} {p : Path} {v : Bytes}
    (h : fs.lookupFile p = some v) : fs.readFile p = .ok v := by
  unfold FS.readFile
  rw [h]

theorem getBlob_of_lookup {s : Store} {a c b : String} {v : Bytes}
    (h : s.fs.lookupFile (blobPath a c b) = some v) :
    getBlob s a c b =
      .ok { name := b, container := c, account := a, content := v,
            contentType := "application/octet-stream", size := v.length,
            metadata := [] } := by
  unfold getBlob
  rw [readFile_of_lookup h]

theorem mkdirAll_ok_of_dir {fs : FS} {p : Path} (hok : FSok fs)
    (hdir : fs.isDir p = true) :
    fs.mkdirAll p = .ok { dirs := p.inits ++ fs.dirs, files := fs.files } := by
  apply mkdirAll_ok_iff.mpr
  refine ⟨?_, rfl⟩
  intro q hq
  have hqdir : q ∈ fs.dirs := hok.2.1 _ (isDir_iff.mp hdir) q hq
  rw [isFile_eq_false_iff]
  intro f hf hfp
  exact (hok.2.2 f hf).1 (hfp ▸ hqdir)

theorem noFile_short {fs : FS} (hdeep : FilesDeep fs) {q : Path}
    (hq : q.length < 3) : fs.isFile q = false := by
  rw [isFile_eq_false_iff]
  intro f hf hfp
  have := hdeep f hf
  rw [hfp] at this
  omega

/-- Converts a decidable ancestor check into the propositional form used by
the DeleteBlob theorem. -/
theorem anc_of_all {fs : FS} {p : Path}
    (h : p.inits.dropLast.all (fun q => ! fs.isFile q) = true) :
    ∀ q, q <+: p → q ≠ p → fs.isFile q = false := by
  intro q hq hne
  have h2 := List.all_eq_true.mp h q (mem_inits_dropLast.mpr ⟨hq, hne⟩)
  rwa [Bool.not_eq_true'] at h2

/-- Converts decidable closure checks into `FSok` (used to instantiate
hypotheses at concrete stores). -/
theorem fsok_of_closed {fs : FS}
    (hbase : fs.dirs.contains ([] : Path) = true)
    (hclosed : fs.dirs.all (fun d => d.inits.all (fun q => fs.dirs.contains q)) = true)
    (hfiles : fs.files.all (fun f =>
      ! fs.dirs.contains f.1
        && f.1.inits.dropLast.all (fun q => fs.dirs.contains q)) = true) :
    FSok fs := by
  refine ⟨contains_iff.mp hbase, ?_, ?_⟩
  · intro d hd q hq
    have h2 := List.all_eq_true.mp hclosed d hd
    exact contains_iff.mp (List.all_eq_true.mp h2 q (mem_inits_intro hq))
  · intro f hf
    have h2 := List.all_eq_true.mp hfiles f hf
    rw [Bool.and_eq_true] at h2
    constructor
    · intro hmem
      rw [Bool.not_eq_true'] at h2
      rw [contains_eq_false_iff] at h2
      exact h2.1 hmem
    · intro q hq hne
      exact contains_iff.mp
        (List.all_eq_true.mp h2.2 q (mem_inits_dropLast.mpr ⟨hq, hne⟩))

/-! ### The claims -/

/-- C1: starting from a fresh store, after every sequence of engine calls
whose names conform to the spec's data model (account and container names a
single non-empty path segment, blob names non-empty slash-separated segment
lists), a container key is in the in-memory index if and only if the
container's directory exists on disk — in particular `CreateContainer`,
`DeleteContainer` and the implicit-create path of `PutBlob` preserve the
correspondence after each operation of the sequence. -/
theorem C1_namespace_index_invariant (ops : List Op)
    (h : ∀ op ∈ ops, wfOp op = true) : IndexInv (run ops) :=
  (inv_run ops h).2.2

theorem C1_witness :
    IndexInv (run [Op.createContainer "a" "c",
                   Op.putBlob "a" "c2" "x/y.txt" [1] "t" [],
                   Op.deleteBlob "a" "c2" "x/y.txt",
                   Op.deleteContainer "a" "c"]) :=
  C1_namespace_index_invariant _ (by decide)

/-- C2: a successful `PutBlob` followed by `GetBlob` on the same key returns
exactly the stored bytes, and after two sequential `PutBlob` calls with the
same key only the second content is retrievable (a `GetBlob` returns exactly
the second content). -/
theorem C2_roundtrip_overwrite (s : Store) (a c b : String) (v1 v2 : Bytes)
    (ct1 ct2 : String) (md1 md2 : List (String × String)) (s1 s2 : Store)
    (h1 : putBlob s a c b v1 ct1 md1 = (.ok (), s1))
    (h2 : putBlob s1 a c b v2 ct2 md2 = (.ok (), s2)) :
    getBlob s1 a c b =
      .ok { name := b, container := c, account := a, content := v1,
            contentType := "application/octet-stream", size := v1.length,
            metadata := [] } ∧
    getBlob s2 a c b =
      .ok { name := b, container := c, account := a, content := v2,
            contentType := "application/octet-stream", size := v2.length,
            metadata := [] } :=
  ⟨getBlob_of_lookup (putBlob_ok_state h1), getBlob_of_lookup (putBlob_ok_state h2)⟩

theorem C2_witness :
    getBlob (putBlob (putBlob freshStore "a" "c" "f.txt" [104] "t" []).2
        "a" "c" "f.txt" [105] "u" []).2 "a" "c" "f.txt"
      = .ok { name := "f.txt", container := "c", account := "a", content := [105],
              contentType := "application/octet-stream", size := 1,
              metadata := [] } :=
  (C2_roundtrip_overwrite freshStore "a" "c" "f.txt" [104] [105] "t" "u" [] []
    (putBlob freshStore "a" "c" "f.txt" [104] "t" []).2
    (putBlob (putBlob freshStore "a" "c" "f.txt" [104] "t" []).2
      "a" "c" "f.txt" [105] "u" []).2
    (by decide) (by decide)).2

/-- C6 counterexample: the engine itself performs no emptiness validation.
`CreateContainer` invoked with an empty account and an empty container name
succeeds (it does not fail at all, let alone with an InvalidArgument error),
refuting the claim at this input. -/
theorem C6_counterexample : (createContainer freshStore "" "").1 = .ok () := by
  decide

/-- C6 amended: the engine (blob store core) performs no empty-name
validation and has no InvalidArgument error kind; empty-name requests are
rejected only by the HTTP adapter, outside the core.  `CreateContainer`
with empty account and name succeeds and records the index key "/", and
`PutBlob` with an empty blob name fails, but with the wrapped filesystem
error of the blob write, not an InvalidArgument. -/
theorem C6_amended :
    (createContainer freshStore "" "").1 = .ok () ∧
    (createContainer freshStore "" "").2.index = ["/"] ∧
    (putBlob freshStore "a" "c" "" [1] "t" []).1 = .error (.ioError "write blob") := by
  decide

/-- C10: `DeleteBlob` never mutates the namespace index: after any call,
successful or not, the index is unchanged, and `ContainerExists` answers
exactly as before for every pair — in particular after deleting the last
remaining blob of a container. -/
theorem C10_deleteBlob_index_frame (s : Store) (a c b : String) :
    (deleteBlob s a c b).2.index = s.index ∧
      ∀ α γ : String,
        containerExists (deleteBlob s a c b).2 α γ = containerExists s α γ := by
  have hidx : (deleteBlob s a c b).2.index = s.index := by
    unfold deleteBlob
    cases hrm : s.fs.removeEntry (blobPath a c b) with
    | error e => cases e <;> rfl
    | ok fs1 => rfl
  refine ⟨hidx, fun α γ => ?_⟩
  unfold containerExists
  rw [hidx]

/-- C3: `CreateContainer` fails with AlreadyExists exactly when the index
already records the key; after a success, `ContainerExists` is true and a
second create of the same key fails with AlreadyExists; and when the index
does not record the key, the call succeeds (marking the index) even if the
container directory already exists on disk. -/
theorem C3_createContainer_alreadyExists (s : Store) (a c : String) :
    ((createContainer s a c).1 = .error .alreadyExists ↔
        s.index.contains (containerKey a c) = true) ∧
    ((createContainer s a c).1 = .ok () →
        containerExists (createContainer s a c).2 a c = true ∧
        (createContainer (createContainer s a c).2 a c).1 = .error .alreadyExists) ∧
    (FSok s.fs → s.index.contains (containerKey a c) = false →
      s.fs.isDir (containerPath a c) = true →
        (createContainer s a c).1 = .ok () ∧
        containerExists (createContainer s a c).2 a c = true) := by
  by_cases hkey : s.index.contains (containerKey a c) = true
  · have hres : createContainer s a c = (.error .alreadyExists, s) := by
      unfold createContainer
      rw [if_pos hkey]
    rw [hres]
    refine ⟨⟨fun _ => hkey, fun _ => rfl⟩, ?_, ?_⟩
    · intro hcon
      simp at hcon
    · intro _ hkf _
      rw [hkey] at hkf
      cases hkf
  · cases hmk : s.fs.mkdirAll (containerPath a c) with
    | error e =>
        have hres : createContainer s a c
            = (.error (.ioError "create container directory"), s) := by
          unfold createContainer
          rw [if_neg hkey, hmk]
        rw [hres]
        refine ⟨⟨?_, ?_⟩, ?_, ?_⟩
        · intro hcon; simp at hcon
        · intro hc; exact absurd hc hkey
        · intro hcon; simp at hcon
        · intro hokfs _ hdir
          rw [mkdirAll_ok_of_dir hokfs hdir] at hmk
          cases hmk
    | ok fs1 =>
        have hres : createContainer s a c
            = (.ok (), { index := containerKey a c :: s.index, fs := fs1 }) := by
          unfold createContainer
          rw [if_neg hkey, hmk]
        have hcont : containerExists
            { index := containerKey a c :: s.index, fs := fs1 } a c = true := by
          unfold containerExists
          exact contains_iff.mpr (List.mem_cons_self _ _)
        rw [hres]
        refine ⟨⟨?_, ?_⟩, ?_, ?_⟩
        · intro hcon; simp at hcon
        · intro hc; exact absurd hc hkey
        · intro _
          refine ⟨hcont, ?_⟩
          have hc2 : (containerKey a c :: s.index).contains (containerKey a c)
              = true := contains_iff.mpr (List.mem_cons_self _ _)
          unfold createContainer
          dsimp only
          rw [if_pos hc2]
        · intro _ _ _
          exact ⟨rfl, hcont⟩

theorem C3_witness :
    containerExists (createContainer
        (Store.mk [] (FS.mk [[], ["a"], ["a", "c"]] [])) "a" "c").2 "a" "c" = true ∧
    (createContainer (createContainer freshStore "x" "y").2 "x" "y").1
      = .error .alreadyExists := by
  constructor
  · exact ((C3_createContainer_alreadyExists
      (Store.mk [] (FS.mk [[], ["a"], ["a", "c"]] [])) "a" "c").2.2
      (fsok_of_closed (by decide) (by decide) (by decide))
      (by decide) (by decide)).2
  · exact ((C3_createContainer_alreadyExists freshStore "x" "y").2.1 (by decide)).2

/-- C7: over stores reached by well-formed engine calls, `DeleteContainer`
fails with NotFound exactly when the index does not record the key; on
success it removes the container directory tree and the index entry, so
`ContainerExists` answers false and `GetBlob` fails with NotFound for every
blob name in the deleted container. -/
theorem C7_deleteContainer_semantics (ops : List Op)
    (hops : ∀ op ∈ ops, wfOp op = true) (a c : String)
    (ha : wfName a = true) (hc : wfName c = true) :
    ((deleteContainer (run ops) a c).1 = .error .containerNotFound ↔
        (run ops).index.contains (containerKey a c) = false) ∧
    ((run ops).index.contains (containerKey a c) = true →
        (deleteContainer (run ops) a c).1 = .ok () ∧
        containerExists (deleteContainer (run ops) a c).2 a c = false ∧
        ∀ b : String,
          getBlob (deleteContainer (run ops) a c).2 a c b
            = .error .blobNotFound) := by
  obtain ⟨hok, hdeep, hidx⟩ := inv_run ops hops
  by_cases hkey : (run ops).index.contains (containerKey a c) = true
  · have hres : deleteContainer (run ops) a c
        = (.ok (), { index := (run ops).index.filter
                        (fun k => k != containerKey a c),
                     fs := (run ops).fs.removeAll (containerPath a c) }) := by
      unfold deleteContainer
      rw [if_neg (by rw [Bool.not_eq_true', hkey]; simp)]
    rw [hres]
    constructor
    · constructor
      · intro hcon; simp at hcon
      · intro hcf; rw [hkey] at hcf; cases hcf
    · intro _
      refine ⟨rfl, ?_, ?_⟩
      · unfold containerExists
        dsimp only
        rw [contains_eq_false_iff]
        intro hmem
        have hbne := (List.mem_filter.mp hmem).2
        rw [bne_self_eq_false] at hbne
        cases hbne
      · intro b
        unfold getBlob
        have hdir2 : ((run ops).fs.removeAll (containerPath a c)).isDir
            (blobPath a c b) = false := by
          rw [isDir_eq_false_iff]
          intro hmem
          exact (removeAll_dirs_mem.mp hmem).2 (List.prefix_append _ _)
        have hanc2 : (blobPath a c b).inits.dropLast.any
            (fun q => ((run ops).fs.removeAll (containerPath a c)).isFile q)
              = false := by
          rw [any_eq_false_iff]
          intro q hq
          rw [isFile_eq_false_iff]
          intro f hf hfq
          obtain ⟨hfmem, hnp⟩ := removeAll_files_mem.mp hf
          obtain ⟨hqpre, hqne⟩ := mem_inits_dropLast.mp hq
          have hdeep3 := hdeep f hfmem
          apply hnp
          rw [containerPath_eq_of_wf ha hc]
          rw [hfq]
          have hqpre2 : q <+: [a, c] ++ blobSegs b := by
            rw [← blobPath_eq ha hc]
            exact hqpre
          exact (prefix_extends_container hqpre2 (by rw [hfq] at hdeep3; omega)).1
        have hrf : ((run ops).fs.removeAll (containerPath a c)).readFile
            (blobPath a c b) = .error .notExist := by
          unfold FS.readFile
          have hlook : ((run ops).fs.removeAll (containerPath a c)).lookupFile
              (blobPath a c b) = none := by
            rw [lookupFile_eq_none_iff]
            intro f hf hfp
            have hnp := (removeAll_files_mem.mp hf).2
            rw [hfp] at hnp
            exact hnp (List.prefix_append _ _)
          rw [hlook, hdir2, hanc2]
          simp
        rw [hrf]
  · rw [Bool.not_eq_true] at hkey
    have hres : deleteContainer (run ops) a c
        = (.error .containerNotFound, run ops) := by
      unfold deleteContainer
      rw [if_pos (by rw [Bool.not_eq_true']; exact hkey)]
    rw [hres]
    refine ⟨⟨fun _ => hkey, fun _ => rfl⟩, ?_⟩
    intro hcf
    rw [hkey] at hcf
    cases hcf

theorem C7_witness :
    (deleteContainer (run [Op.putBlob "a" "c" "f.txt" [104] "t" []]) "a" "c").1
      = .ok () ∧
    containerExists (deleteContainer
      (run [Op.putBlob "a" "c" "f.txt" [104] "t" []]) "a" "c").2 "a" "c" = false ∧
    getBlob (deleteContainer
      (run [Op.putBlob "a" "c" "f.txt" [104] "t" []]) "a" "c").2 "a" "c" "f.txt"
        = .error .blobNotFound := by
  have h := (C7_deleteContainer_semantics [Op.putBlob "a" "c" "f.txt" [104] "t" []]
    (by decide) "a" "c" (by decide) (by decide)).2 (by decide)
  exact ⟨h.1, h.2.1, h.2.2 "f.txt"⟩

/-- C9 counterexample: the claim's iff fails on the code.  After storing blob
"x/y.txt" and deleting it, the intermediate directory "x" remains (empty).
No file exists at the blob path "x", yet `DeleteBlob "x"` does not fail with
NotFound — it succeeds, because `os.Remove` also removes empty directories. -/
theorem C9_counterexample :
    ((run [Op.putBlob "a" "c" "x/y.txt" [1] "t" [],
        Op.deleteBlob "a" "c" "x/y.txt"]).fs.lookupFile (blobPath "a" "c" "x")
      = none) ∧
    ((deleteBlob (run [Op.putBlob "a" "c" "x/y.txt" [1] "t" [],
        Op.deleteBlob "a" "c" "x/y.txt"]) "a" "c" "x").1 = .ok ()) := by
  decide

/-- C9 amended: provided no directory occupies the blob path and no regular
file occupies a proper ancestor of it, `DeleteBlob` fails with NotFound
exactly when the blob's file does not exist; on success it removes exactly
that one file — the directories (hence the container directory) and all
other files are untouched — and a subsequent `GetBlob` of the same name
fails with NotFound.  (When an empty directory occupies the path the call
instead succeeds by removing that directory — the counterexample above —
and a non-empty directory or a file at a proper ancestor yields an IOError,
not NotFound.) -/
theorem C9_deleteBlob_semantics (s : Store) (a c b : String)
    (hnd : s.fs.isDir (blobPath a c b) = false)
    (hanc : ∀ q, q <+: blobPath a c b → q ≠ blobPath a c b →
      s.fs.isFile q = false) :
    ((deleteBlob s a c b).1 = .error .blobNotFound ↔
        s.fs.isFile (blobPath a c b) = false) ∧
    (s.fs.isFile (blobPath a c b) = true →
        (deleteBlob s a c b).1 = .ok () ∧
        (deleteBlob s a c b).2.fs.dirs = s.fs.dirs ∧
        (deleteBlob s a c b).2.fs.files
          = s.fs.files.filter (fun f => f.1 != blobPath a c b) ∧
        getBlob (deleteBlob s a c b).2 a c b = .error .blobNotFound) := by
  by_cases hfile : s.fs.isFile (blobPath a c b) = true
  · have hres : deleteBlob s a c b
        = (.ok (), { s with fs :=
            { dirs := s.fs.dirs,
              files := s.fs.files.filter (fun f => f.1 != blobPath a c b) } }) := by
      unfold deleteBlob
      rw [removeEntry_ok_file hfile]
    rw [hres]
    constructor
    · constructor
      · intro hcon; simp at hcon
      · intro hcf; rw [hfile] at hcf; cases hcf
    · intro _
      refine ⟨rfl, rfl, rfl, ?_⟩
      unfold getBlob
      have hrf : (FS.mk s.fs.dirs
          (s.fs.files.filter (fun f => f.1 != blobPath a c b))).readFile
            (blobPath a c b) = .error .notExist := by
        unfold FS.readFile
        have hlook : (FS.mk s.fs.dirs
            (s.fs.files.filter (fun f => f.1 != blobPath a c b))).lookupFile
              (blobPath a c b) = none := by
          rw [lookupFile_eq_none_iff]
          intro f hf
          have hbne := (List.mem_filter.mp hf).2
          rw [bne_iff_ne] at hbne
          exact hbne
        have hanc2 : (blobPath a c b).inits.dropLast.any
            (fun q => (FS.mk s.fs.dirs
              (s.fs.files.filter (fun f => f.1 != blobPath a c b))).isFile q)
                = false := by
          rw [any_eq_false_iff]
          intro q hq
          obtain ⟨hqpre, hqne⟩ := mem_inits_dropLast.mp hq
          rw [isFile_eq_false_iff]
          intro f hf hfq
          have hfmem := (List.mem_filter.mp hf).1
          have h3 := hanc q hqpre hqne
          rw [isFile_eq_false_iff] at h3
          exact h3 f hfmem hfq
        rw [hlook]
        have hdir2 : (FS.mk s.fs.dirs
            (s.fs.files.filter (fun f => f.1 != blobPath a c b))).isDir
              (blobPath a c b) = false := hnd
        rw [hdir2, hanc2]
        simp
      rw [hrf]
  · rw [Bool.not_eq_true] at hfile
    have hne := (removeEntry_notExist_iff hnd hanc).mpr hfile
    have hres : deleteBlob s a c b = (.error .blobNotFound, s) := by
      unfold deleteBlob
      rw [hne]
    rw [hres]
    refine ⟨⟨fun _ => hfile, fun _ => rfl⟩, ?_⟩
    intro hcf
    rw [hfile] at hcf
    cases hcf

theorem C9_witness :
    (deleteBlob (run [Op.putBlob "a" "c" "f.txt" [104] "t" []])
        "a" "c" "f.txt").1 = .ok () ∧
    getBlob (deleteBlob (run [Op.putBlob "a" "c" "f.txt" [104] "t" []])
        "a" "c" "f.txt").2 "a" "c" "f.txt" = .error .blobNotFound := by
  have h := (C9_deleteBlob_semantics
    (run [Op.putBlob "a" "c" "f.txt" [104] "t" []]) "a" "c" "f.txt"
    (by decide) (anc_of_all (by decide))).2 (by decide)
  exact ⟨h.1, h.2.2.2⟩

/-- C8: content type and metadata are accepted on write but never persisted:
the result of `PutBlob` is entirely independent of its contentType and
metadata arguments, every successful `GetBlob` reports the placeholder
content type "application/octet-stream" and an empty metadata map, and so
does every entry of a successful `ListBlobs`. -/
theorem C8_fixed_placeholders (s : Store) (a c b pre : String) (v : Bytes)
    (ct ct2 : String) (md md2 : List (String × String)) (maxR : Int) :
    putBlob s a c b v ct md = putBlob s a c b v ct2 md2 ∧
    (∀ blob : Blob, getBlob s a c b = .ok blob →
        blob.contentType = "application/octet-stream" ∧ blob.metadata = []) ∧
    (∀ l : List BlobInfo, listBlobs s a c pre maxR = .ok l →
        ∀ e ∈ l, e.contentType = "application/octet-stream" ∧ e.metadata = []) := by
  refine ⟨rfl, ?_, ?_⟩
  · intro blob h
    unfold getBlob at h
    cases hr : s.fs.readFile (blobPath a c b) with
    | error e =>
        rw [hr] at h
        cases e <;> simp at h
    | ok content =>
        rw [hr] at h
        dsimp only at h
        injection h with h1
        rw [← h1]
        exact ⟨rfl, rfl⟩
  · intro l h
    simp only [listBlobs] at h
    split at h
    · split at h <;> simp at h
    · injection h with h1
      intro e he
      rw [← h1] at he
      obtain ⟨x, hx, rfl⟩ := List.mem_map.mp he
      exact ⟨rfl, rfl⟩

theorem C8_witness :
    ∀ blob : Blob,
      getBlob (putBlob freshStore "a" "c" "f.txt" [104] "text/plain"
        [("k", "v")]).2 "a" "c" "f.txt" = .ok blob →
      blob.contentType = "application/octet-stream" ∧ blob.metadata = [] :=
  (C8_fixed_placeholders (putBlob freshStore "a" "c" "f.txt" [104] "text/plain"
    [("k", "v")]).2 "a" "c" "f.txt" "" [104] "text/plain" "t" [("k", "v")] [] 0).2.1

/-- `PutBlob` against a container the index does not record: the call
succeeds, creates the container directory, the index entry and every
intermediate directory implied by the blob name, and the final state marks
the container as existing. -/
theorem putBlob_implicit_create {s : Store} (hinv : Inv s) (a c b : String)
    (ha : wfName a = true) (hc : wfName c = true) (hb : wfBlobName b = true)
    (hnc : s.index.contains (containerKey a c) = false)
    (v : Bytes) (ct : String) (md : List (String × String)) :
    (putBlob s a c b v ct md).1 = .ok () ∧
    (putBlob s a c b v ct md).2.fs.isDir (containerPath a c) = true ∧
    (∀ q, q <+: (blobPath a c b).dropLast →
        (putBlob s a c b v ct md).2.fs.isDir q = true) ∧
    containerExists (putBlob s a c b v ct md).2 a c = true := by
  obtain ⟨hok, hdeep, hidx⟩ := hinv
  have hnofdeep : ∀ f ∈ s.fs.files, ¬ [a, c] <+: f.1 := by
    intro f hf hpre
    have hlen := hdeep f hf
    by_cases heq : f.1 = [a, c]
    · rw [heq] at hlen
      simp at hlen
    · have hdirac : ([a, c] : Path) ∈ s.fs.dirs :=
        (hok.2.2 f hf).2 [a, c] hpre (fun hcc => heq hcc.symm)
      have hcont := (hidx a c ha hc).mpr (isDir_iff.mpr (by
        rw [containerPath_eq_of_wf ha hc]
        exact hdirac))
      rw [hnc] at hcont
      cases hcont
  have hnofile : ∀ q, q <+: blobPath a c b → s.fs.isFile q = false := by
    intro q hq
    rcases Nat.lt_or_ge q.length 3 with hl | hl
    · exact noFile_short hdeep hl
    · rw [blobPath_eq ha hc] at hq
      obtain ⟨hpre, -⟩ := prefix_extends_container hq hl
      rw [isFile_eq_false_iff]
      intro f hf hfq
      exact hnofdeep f hf (hfq ▸ hpre)
  have hmk1 : s.fs.mkdirAll (containerPath a c) = .ok
      (FS.mk ((containerPath a c).inits ++ s.fs.dirs) s.fs.files) :=
    mkdirAll_ok_iff.mpr
      ⟨fun q hq => hnofile q (hq.trans (List.prefix_append _ _)), rfl⟩
  have hens : ensureContainer s a c = .ok
      { index := containerKey a c :: s.index,
        fs := FS.mk ((containerPath a c).inits ++ s.fs.dirs) s.fs.files } := by
    unfold ensureContainer
    rw [if_neg (by rw [hnc]; simp), hmk1]
  have hmk2 : (FS.mk ((containerPath a c).inits ++ s.fs.dirs)
      s.fs.files).mkdirAll (blobPath a c b).dropLast = .ok
      (FS.mk ((blobPath a c b).dropLast.inits
        ++ ((containerPath a c).inits ++ s.fs.dirs)) s.fs.files) := by
    apply mkdirAll_ok_iff.mpr
    refine ⟨?_, rfl⟩
    intro q hq
    have hq2 : q <+: blobPath a c b := hq.trans ( List.dropLast_prefix _)
    have hnf := hnofile q hq2
    rw [isFile_eq_false_iff] at hnf ⊢
    exact hnf
  have hdirblob : blobPath a c b ∉ ((blobPath a c b).dropLast.inits
      ++ ((containerPath a c).inits ++ s.fs.dirs)) := by
    intro hmem
    have hlen3 := blobPath_length ha hc hb
    rcases List.mem_append.mp hmem with hm | hm
    · have hle := (prefix_of_mem_inits hm).length_le
      rw [List.length_dropLast] at hle
      omega
    · rcases List.mem_append.mp hm with hm2 | hm2
      · have hle := (prefix_of_mem_inits hm2).length_le
        rw [containerPath_eq_of_wf ha hc] at hle
        simp only [List.length_cons, List.length_singleton, List.length_nil] at hle
        omega
      · have hpre : ([a, c] : Path) <+: blobPath a c b := by
          rw [blobPath_eq ha hc]
          exact List.prefix_append _ _
        have hdirac := hok.2.1 _ hm2 [a, c] hpre
        have hcont := (hidx a c ha hc).mpr (isDir_iff.mpr (by
          rw [containerPath_eq_of_wf ha hc]
          exact hdirac))
        rw [hnc] at hcont
        cases hcont
  have hwr : (FS.mk ((blobPath a c b).dropLast.inits
      ++ ((containerPath a c).inits ++ s.fs.dirs)) s.fs.files).writeFile
        (blobPath a c b) v = .ok
      (FS.mk ((blobPath a c b).dropLast.inits
        ++ ((containerPath a c).inits ++ s.fs.dirs))
        ((blobPath a c b, v)
          :: s.fs.files.filter (fun f => f.1 != blobPath a c b))) := by
    apply writeFile_ok_iff.mpr
    refine ⟨?_, ?_, ?_, rfl⟩
    · rw [isDir_eq_false_iff]
      exact hdirblob
    · rw [isDir_iff]
      exact List.mem_append.mpr (Or.inl (mem_inits_intro (List.prefix_refl _)))
    · intro q hq hne
      have hnf := hnofile q hq
      rw [isFile_eq_false_iff] at hnf ⊢
      exact hnf
  have hput : putBlob s a c b v ct md = (.ok (),
      { index := containerKey a c :: s.index,
        fs := FS.mk ((blobPath a c b).dropLast.inits
          ++ ((containerPath a c).inits ++ s.fs.dirs))
          ((blobPath a c b, v)
            :: s.fs.files.filter (fun f => f.1 != blobPath a c b)) }) := by
    unfold putBlob
    rw [hens]
    dsimp only
    rw [hmk2]
    dsimp only
    rw [hwr]
  rw [hput]
  refine ⟨rfl, ?_, ?_, ?_⟩
  · rw [isDir_iff]
    dsimp only
    refine List.mem_append.mpr (Or.inr (List.mem_append.mpr (Or.inl ?_)))
    exact mem_inits_intro (List.prefix_refl _)
  · intro q hq
    rw [isDir_iff]
    dsimp only
    exact List.mem_append.mpr (Or.inl (mem_inits_intro hq))
  · unfold containerExists
    dsimp only
    exact contains_iff.mpr (List.mem_cons_self _ _)

/-- C5: over stores reached by well-formed engine calls, `PutBlob` against a
container not recorded in the index succeeds with no error (in particular no
NotFound and no AlreadyExists), creates the container directory, the index
entry and all intermediate directories implied by a multi-segment blob name,
and `ContainerExists` answers true afterwards. -/
theorem C5_putBlob_implicit_create (ops : List Op)
    (hops : ∀ op ∈ ops, wfOp op = true) (a c b : String)
    (ha : wfName a = true) (hc : wfName c = true) (hb : wfBlobName b = true)
    (hnc : (run ops).index.contains (containerKey a c) = false)
    (v : Bytes) (ct : String) (md : List (String × String)) :
    (putBlob (run ops) a c b v ct md).1 = .ok () ∧
    (putBlob (run ops) a c b v ct md).2.fs.isDir (containerPath a c) = true ∧
    (∀ q, q <+: (blobPath a c b).dropLast →
        (putBlob (run ops) a c b v ct md).2.fs.isDir q = true) ∧
    containerExists (putBlob (run ops) a c b v ct md).2 a c = true :=
  putBlob_implicit_create (inv_run ops hops) a c b ha hc hb hnc v ct md

theorem C5_witness :
    (putBlob (run [Op.createContainer "other" "c"]) "a" "c" "x/y.txt"
        [1] "t" []).1 = .ok () ∧
    containerExists (putBlob (run [Op.createContainer "other" "c"])
        "a" "c" "x/y.txt" [1] "t" []).2 "a" "c" = true := by
  have h := C5_putBlob_implicit_create [Op.createContainer "other" "c"]
    (by decide) "a" "c" "x/y.txt" (by decide) (by decide) (by decide)
    (by decide) [1] "t" []
  exact ⟨h.1, h.2.2.2⟩

theorem filterMap_filter_eq_map {α β : Type} (p : α → Bool) (q : β → Bool)
    (g : α → β) (l : List α) :
    (l.filterMap (fun x => if p x = true then some (g x) else none)).filter q
      = (l.filter (fun x => p x && q (g x))).map g := by
  induction l with
  | nil => rfl
  | cons x xs ih =>
      rcases Bool.eq_false_or_eq_true (p x) with hp | hp <;>
        rcases Bool.eq_false_or_eq_true (q (g x)) with hq | hq <;>
          simp [List.filterMap_cons, List.filter_cons, hp, hq, ih]

/-- C4: over stores reached by well-formed engine calls, `ListBlobs` fails
with NotFound exactly when the container directory does not exist on disk;
otherwise it returns one entry per regular file below the container
directory (directories are never listed), named by the file's path relative
to the container root with forward-slash separators, keeping only names
that start with a non-empty filter string; a positive maxResults returns
exactly `min maxResults (number of matching files)` entries (the walk stops
at the cap), a non-positive one returns all matching entries.  Which
entries survive the cap follows the traversal order, which is unspecified. -/
theorem C4_listBlobs_semantics (ops : List Op)
    (hops : ∀ op ∈ ops, wfOp op = true) (a c pre : String)
    (ha : wfName a = true) (hc : wfName c = true) (maxR : Int) :
    ((run ops).fs.isDir (containerPath a c) = false →
        listBlobs (run ops) a c pre maxR = .error .containerNotFound) ∧
    ((run ops).fs.isDir (containerPath a c) = true →
        listBlobs (run ops) a c pre maxR = .ok
          ((if maxR > 0
            then (matchingFiles (run ops) a c pre).take maxR.toNat
            else matchingFiles (run ops) a c pre).map
            (fun f => { name := relName (containerPath a c) f.1,
                        contentType := "application/octet-stream",
                        size := f.2.length, metadata := [] })) ∧
        (maxR > 0 → ∀ l : List BlobInfo,
          listBlobs (run ops) a c pre maxR = .ok l →
            l.length = min maxR.toNat
              (matchingFiles (run ops) a c pre).length)) := by
  obtain ⟨hok, hdeep, hidx⟩ := inv_run ops hops
  have hlen2 : (containerPath a c).length = 2 := by
    rw [containerPath_eq_of_wf ha hc]
    rfl
  have hnotfile : (run ops).fs.isFile (containerPath a c) = false :=
    noFile_short hdeep (by omega)
  constructor
  · intro hnd
    have hstat : (run ops).fs.statExists (containerPath a c) = false := by
      unfold FS.statExists
      rw [hnd, hnotfile]
      rfl
    have hanc : (containerPath a c).inits.dropLast.any
        (fun q => (run ops).fs.isFile q) = false := by
      rw [any_eq_false_iff]
      intro q hq
      obtain ⟨hpre, -⟩ := mem_inits_dropLast.mp hq
      have hql := hpre.length_le
      exact noFile_short hdeep (by omega)
    simp only [listBlobs]
    rw [if_pos (by rw [hstat]; rfl), if_neg (by rw [hanc]; simp)]
  · intro hdir
    have hstat : (run ops).fs.statExists (containerPath a c) = true := by
      unfold FS.statExists
      rw [hdir]
      rfl
    have hwalk : walkFiles (run ops).fs (containerPath a c)
        = (run ops).fs.files.filterMap (fun f =>
            if ((containerPath a c).isPrefixOf f.1
                && f.1 != containerPath a c) = true
            then some (relName (containerPath a c) f.1, f.2) else none) := by
      unfold walkFiles
      rw [if_neg (by rw [hnotfile]; simp)]
    have hmain : listBlobs (run ops) a c pre maxR = .ok
        ((if maxR > 0
          then (matchingFiles (run ops) a c pre).take maxR.toNat
          else matchingFiles (run ops) a c pre).map
          (fun f => { name := relName (containerPath a c) f.1,
                      contentType := "application/octet-stream",
                      size := f.2.length, metadata := [] })) := by
      simp only [listBlobs]
      rw [if_neg (by rw [hstat]; simp)]
      have hcoll : (walkFiles (run ops).fs (containerPath a c)).filter
          (fun e => pre == "" || strStartsWith pre e.1)
            = (matchingFiles (run ops) a c pre).map
                (fun f => (relName (containerPath a c) f.1, f.2)) := by
        rw [hwalk, filterMap_filter_eq_map]
        rfl
      rw [hcoll]
      by_cases hmr : maxR > 0
      · rw [if_pos hmr, if_pos hmr, ← List.map_take, List.map_map]
        rfl
      · rw [if_neg hmr, if_neg hmr, List.map_map]
        rfl
    refine ⟨hmain, ?_⟩
    intro hmr l hl
    rw [hmain] at hl
    injection hl with h1
    rw [← h1, List.length_map, if_pos hmr, List.length_take]

theorem C4_witness :
    listBlobs (run [Op.putBlob "a" "c" "a/x" [1] "t" [],
                    Op.putBlob "a" "c" "a/y" [1] "t" [],
                    Op.putBlob "a" "c" "b/z" [1] "t" []]) "a" "c" "a/" 0
      = .ok [{ name := "a/y", contentType := "application/octet-stream",
               size := 1, metadata := [] },
             { name := "a/x", contentType := "application/octet-stream",
               size := 1, metadata := [] }] := by
  have h := (C4_listBlobs_semantics
    [Op.putBlob "a" "c" "a/x" [1] "t" [],
     Op.putBlob "a" "c" "a/y" [1] "t" [],
     Op.putBlob "a" "c" "b/z" [1] "t" []]
    (by decide) "a" "c" "a/" (by decide) (by decide) 0).2 (by decide)
  rw [h.1]
  decide

end BlueStack
